import Mathlib

/-!
Shallow embedding of the contrast-estimation core of `pyKLIP_for_Webb/contrast.py`
(masking of known companions and of the bar occulter, the caching policy of
`cal_contrast_curve`, contrast interpolation and NaN filtering, throughput
aggregation, and the final calibration division), together with theorems that
settle the specification claims about these operations.

Conventions of the embedding:
* numpy floating-point values are modelled as `Option ℚ`, with `none` playing
  the role of the not-a-number sentinel `np.nan`; exact rationals replace
  floats wherever the source only does field arithmetic and comparisons;
* a numpy array is a shape (list of dimension sizes, as returned by `.shape`)
  together with the row-major flat list of its entries;
* `raise UserWarning(...)` is modelled as `Except.error` carrying the message;
* angle computations of `mask_bar` (`np.arctan2`, `np.rad2deg`, float `%`)
  are modelled over `ℝ`, with `np.arctan2 a b` as the argument of the complex
  number `b + a*I`.
-/

namespace Contrast

/-- A numpy floating-point value: `none` is the not-a-number sentinel. -/
abbrev Val := Option ℚ

/-- A numpy array: its shape (`data.shape`) and its row-major flat data. -/
structure NpArray where
  shape : List ℕ
  data : List Val
deriving DecidableEq

instance : Inhabited NpArray := ⟨⟨[], []⟩⟩

/-- Column index of flat position `n` in a frame of width `W` (row-major). -/
def pixX (W n : ℕ) : ℕ := n % W

/-- Row index of flat position `n` in a frame of height `H` and width `W`. -/
def pixY (W H n : ℕ) : ℕ := (n / W) % H

/-- The source tests `sqrt((xx-cent[0]+ra/pxsc)**2+(yy-cent[1]-de/pxsc)**2) <= mrad`.
Over `ℚ` the square root is eliminated: for `0 ≤ s`, `√s ≤ r ↔ 0 ≤ r ∧ s ≤ r^2`;
the left-hand sum of squares is always nonnegative. -/
def distLe (s r : ℚ) : Prop := 0 ≤ r ∧ s ≤ r ^ 2

instance (s r : ℚ) : Decidable (distLe s r) := by
  unfold distLe
  infer_instance

/-- Squared distance of pixel `(pixX W n, pixY W H n)` from the image point that
the source writes as `(cent[0]-ra/pxsc, cent[1]+de/pxsc)`, in the exact form of
line 437 of `contrast.py`: `(xx-cent[0]+ra/pxsc)**2+(yy-cent[1]-de/pxsc)**2`. -/
def compDist2 (pxsc : ℚ) (cent : ℚ × ℚ) (rd : ℚ × ℚ) (W H n : ℕ) : ℚ :=
  ((pixX W n : ℚ) - cent.1 + rd.1 / pxsc) ^ 2 +
    ((pixY W H n : ℚ) - cent.2 - rd.2 / pxsc) ^ 2

/-- Whether flat pixel `n` is masked by some known companion: the loop
`for ra, de in zip(ra_off, de_off): data_masked[:, dist <= mrad] = np.nan`
sets a pixel to NaN exactly when some companion satisfies the distance test. -/
def compMaskedB (pxsc : ℚ) (cent : ℚ × ℚ) (mrad : ℚ) (ra_off de_off : List ℚ)
    (W H n : ℕ) : Bool :=
  (ra_off.zip de_off).any fun rd => decide (distLe (compDist2 pxsc cent rd W H n) mrad)

/-- Apply a flat-index mask to a data list starting at flat index `k`:
entries whose index satisfies `f` become NaN, the rest are kept. -/
def maskFrom (f : ℕ → Bool) : ℕ → List Val → List Val
  | _, [] => []
  | k, v :: rest => (if f k then none else v) :: maskFrom f (k + 1) rest

/-- The function `mask_companions` from `contrast.py` (lines 397-440): sanitize the shape,
copy the data, and set to NaN every pixel within `mrad` of a companion. -/
def mask_companions (data : NpArray) (pxsc : ℚ) (cent : ℚ × ℚ) (mrad : ℚ)
    (ra_off de_off : List ℚ) : Except String NpArray :=
  if data.shape.length ≠ 3 then .error ("Data has invalid shape")
  else
    .ok ⟨data.shape,
      maskFrom (compMaskedB pxsc cent mrad ra_off de_off
        (data.shape.getD 2 0) (data.shape.getD 1 0)) 0 data.data⟩

/-- Model of `np.arctan2 a b`: the angle of the point with abscissa `b` and ordinate `a`,
i.e. the argument of the complex number `b + a*I`, in `(-π, π]`. -/
noncomputable def arctan2 (a b : ℝ) : ℝ := Complex.arg ⟨b, a⟩

/-- Python float modulo by 360: `z % 360. = z - 360*⌊z/360⌋`, in `[0, 360)`. -/
noncomputable def mod360 (z : ℝ) : ℝ := z - 360 * ⌊z / 360⌋

/-- The per-pixel angle grid of `mask_bar`, line 477 of `contrast.py`:
`tt = np.rad2deg(-1.*np.arctan2((xx-cent[0]), (yy-cent[1]))) % 360.`. -/
noncomputable def ttCode (cent : ℚ × ℚ) (W H n : ℕ) : ℝ :=
  mod360 ((180 / Real.pi) *
    (-arctan2 ((((pixX W n : ℚ) - cent.1 : ℚ) : ℝ)) ((((pixY W H n : ℚ) - cent.2 : ℚ) : ℝ))))

/-- The boolean mask of line 481: `(tt >= lo) & (tt <= hi)` for one pizza slice. -/
noncomputable def inRangeTT (cent : ℚ × ℚ) (W H : ℕ) (r : ℚ × ℚ) (n : ℕ) : Prop :=
  (r.1 : ℝ) ≤ ttCode cent W H n ∧ ttCode cent W H n ≤ (r.2 : ℝ)

open Classical in
/-- One restoring pass `data_masked[:, mask] = data[:, mask]` over a flat data
list, starting at flat index `k`: pixels satisfying `inR` are reset to the
original data, the rest keep their current value. -/
noncomputable def restoreFrom (inR : ℕ → Prop) (orig : List Val) : ℕ → List Val → List Val
  | _, [] => []
  | k, c :: rest => (if inR k then orig.getD k none else c) :: restoreFrom inR orig (k + 1) rest

/-- The loop of `mask_bar` (lines 478-482): on the first iteration every pixel
of the copy is set to NaN (`if (i == 0): data_masked[:] = np.nan`), then each
slice restores its pixels from the original data; an empty slice list skips
the loop, leaving the plain copy. -/
noncomputable def barCore (cent : ℚ × ℚ) (W H : ℕ) (orig : List Val) :
    List (ℚ × ℚ) → List Val
  | [] => orig
  | r0 :: rest =>
    rest.foldl (fun cur r => restoreFrom (inRangeTT cent W H r) orig 0 cur)
      (restoreFrom (inRangeTT cent W H r0) orig 0 (orig.map fun _ => none))

/-- The function `mask_bar` from `contrast.py` (lines 443-484). -/
noncomputable def mask_bar (data : NpArray) (cent : ℚ × ℚ) (pa_ranges_bar : List (ℚ × ℚ)) :
    Except String NpArray :=
  if data.shape.length ≠ 3 then .error ("Data has invalid shape")
  else
    .ok ⟨data.shape,
      barCore cent (data.shape.getD 2 0) (data.shape.getD 1 0) data.data pa_ranges_bar⟩

/-- The four per-scenario injection-table artifact files of `cal_contrast_curve`
(lines 258-261 and 302-305 of `contrast.py`); the common scenario-dependent
prefix `odir+key` is fixed per store, the suffixes distinguish the files. -/
inductive FName where
  | flux_all
  | seps_all
  | pas_all
  | flux_retr_all
deriving DecidableEq

/-- A persisted artifact: the flat contents of one `.npy` file. -/
abbrev Artifact := List ℚ

/-- The per-scenario file store: most recent save first. -/
abbrev FS := List (FName × Artifact)

/-- Model of `np.save(name, a)`: (over)write the file, shadowing any older version. -/
def npSave (fs : FS) (k : FName) (a : Artifact) : FS := (k, a) :: fs

/-- Model of `np.load(name)`: `some` contents on success, `none` when the load raises. -/
def npLoad : FS → FName → Option Artifact
  | [], _ => none
  | (k, a) :: fs, n => if n = k then some a else npLoad fs n

/-- The injection table of one scenario: the four columns persisted by
`cal_contrast_curve`. -/
structure InjTable where
  flux_all : Artifact
  seps_all : Artifact
  pas_all : Artifact
  flux_retr_all : Artifact
deriving DecidableEq

/-- The `todo == True` path of lines 298-305: run injection and recovery (its
result is the `computed` argument) and save all four columns. -/
def recomputeSave (fs : FS) (computed : InjTable) : FS :=
  npSave (npSave (npSave (npSave fs .flux_all computed.flux_all)
    .seps_all computed.seps_all) .pas_all computed.pas_all)
    .flux_retr_all computed.flux_retr_all

/-- The caching step of `cal_contrast_curve`, lines 256-305: when `overwrite`
is false, try to load all four artifacts; only if all four succeed is the
injection-and-recovery computation skipped (`todo = False`) and the loaded
table reused; any failure, or `overwrite`, recomputes and saves. The returned
boolean records whether injection and recovery ran. -/
def cal_cache_step (fs : FS) (overwrite : Bool) (computed : InjTable) :
    FS × InjTable × Bool :=
  if overwrite then (recomputeSave fs computed, computed, true)
  else
    match npLoad fs .flux_all, npLoad fs .seps_all,
        npLoad fs .pas_all, npLoad fs .flux_retr_all with
    | some a, some b, some c, some d => (fs, ⟨a, b, c, d⟩, false)
    | _, _, _, _ => (recomputeSave fs computed, computed, true)

/-- A raw or calibrated contrast curve: separations (arcsec) and 5σ contrasts.
The contrast values live in `ℝ` because the calibration step divides by the
transcendental throughput model. -/
structure Curve where
  seps : List ℝ
  cons : List ℝ

/-- Modelled from the spec: the 5-parameter logistic growth function `self.func`
fitted by the Throughput Model Fitter is not part of the sources given here;
§4.4 of the spec describes it as
`f(sep) = c1 + c2 / (1 + exp(-(sep - c5) / c4))^c3`. -/
noncomputable def func (p : List ℝ) (s : ℝ) : ℝ :=
  p.getD 0 0 + p.getD 1 0 /
    (1 + Real.exp (-(s - p.getD 4 0) / p.getD 3 0)) ^ p.getD 2 0

/-- Line 318 of `contrast.py`:
`corr_cons = cons/self.func(pp['x'], seps*1000./pxsc)` — the raw contrasts are
divided elementwise by the throughput model evaluated at the raw separations
converted from arcsec to pixels; the separation axis itself is reused
unchanged (lines 377-378 plot both curves against the same `seps`). -/
noncomputable def cal_corr (raw : Curve) (p : List ℝ) (pxsc : ℝ) : Curve :=
  ⟨raw.seps, List.zipWith (fun s c => c / func p (s * 1000 / pxsc)) raw.seps raw.cons⟩

/-- One injection-and-recovery trial: the columns `flux`, `seps`, `pas`,
`flux_retr` of the astropy table built on line 310 of `contrast.py`. -/
structure Trial where
  flux : ℚ
  seps : ℚ
  pas : ℚ
  flux_retr : ℚ
deriving DecidableEq

/-- Line 311: `res['tps'] = res['flux_retr']/res['flux']`. -/
def tpsOf (t : Trial) : ℚ := t.flux_retr / t.flux

/-- The throughput ratios of the trials whose separation equals `s` exactly
(astropy `group_by('seps')` groups rows with equal key values). -/
def group_tps (trials : List Trial) (s : ℚ) : List ℚ :=
  (trials.filter fun t => decide (t.seps = s)).map tpsOf

/-- Model of `np.nanmedian` of a list of ratios. The ratios of this `ℚ` model are
NaN-free, so nanmedian is the plain median in the numpy convention: the middle
order statistic for odd length, the mean of the two middle order statistics
for even length. -/
def medianQ (xs : List ℚ) : ℚ :=
  if xs.length % 2 = 1 then (xs.insertionSort (· ≤ ·)).getD (xs.length / 2) 0
  else
    ((xs.insertionSort (· ≤ ·)).getD (xs.length / 2 - 1) 0 +
      (xs.insertionSort (· ≤ ·)).getD (xs.length / 2) 0) / 2

/-- Lines 312-313: `med_res = res.group_by('seps'); med_res.groups.aggregate(np.nanmedian)`
— one aggregated row per distinct separation value, carrying the median of the
per-trial throughput ratios of that group. -/
def agg_med (trials : List Trial) : List (ℚ × ℚ) :=
  ((trials.map (·.seps)).dedup).map fun s => (s, medianQ (group_tps trials s))

/-- Walk the sample points of `np.interp` left to right; `(x0, f0)` is the
last sample not to the right of `x`. At the final sample the sample value
itself is returned (this covers both `x` equal to the last abscissa and `x`
beyond it, numpy right-clamping). Interior: numpy evaluates
`slope*(x - x0) + f0` with `slope = (f1 - f0)/(x1 - x0)`, returning the sample
value exactly when `x` hits a sample abscissa; NaN neighbours propagate. -/
def interpSeg (x : ℚ) : ℚ × Val → List (ℚ × Val) → Val
  | (_, f0), [] => f0
  | (x0, f0), (x1, f1) :: rest =>
    if x = x0 then f0
    else if x ≤ x1 then
      match f0, f1 with
      | some a, some b => some ((b - a) / (x1 - x0) * (x - x0) + a)
      | _, _ => none
    else interpSeg x (x1, f1) rest

/-- Model of `np.interp(x, xp, fp)` for increasing `xp`: values left of the first
sample clamp to `fp[0]`, values right of the last clamp to `fp[-1]`,
interior values are linearly interpolated; never raises. -/
def np_interp (x : ℚ) (xp : List ℚ) (fp : List Val) : Val :=
  match xp.zip fp with
  | [] => none
  | (x0, f0) :: rest => if x < x0 then f0 else interpSeg x (x0, f0) rest

/-- Lines 286-291 of `contrast.py` restricted to one candidate separation
`si` (in pixels): the injected contrast is the raw curve interpolated at
`si*pxsc/1000` arcsec times 5, and the injected flux converts it to MJy/sr by
the factor `Fstar*(180/π*3600*1000)**2/pxsc**2`. The numeric factor is
irrational; it is abstracted as the parameter `conv`, which does not affect
which fluxes are NaN. -/
def flux_inject_of (seps : List ℚ) (cons : List Val) (pxsc Fstar conv : ℚ)
    (seps_inject : List ℚ) : List Val :=
  seps_inject.map fun si =>
    (np_interp (si * pxsc / 1000) seps cons).map fun c => c * 5 * Fstar * conv / pxsc ^ 2

/-- Line 297: `good = np.isnan(flux_inject) == False`. -/
def good_mask (flux : List Val) : List Bool := flux.map (·.isSome)

/-- numpy boolean indexing `xs[mask]`: keep the entries at `true` positions. -/
def boolIndex {α : Type} (mask : List Bool) (xs : List α) : List α :=
  ((mask.zip xs).filter (·.1)).map (·.2)

/-- Heap-level view of `mask_companions`: the source copies its input
(`data_masked = data.copy()`, line 434) and every subsequent write targets the
copy, so the effect on the array store is to append one fresh array and leave
every existing array untouched; the returned handle is the fresh index. -/
def mask_companions_heap (st : List NpArray) (i : ℕ) (pxsc : ℚ) (cent : ℚ × ℚ)
    (mrad : ℚ) (ra_off de_off : List ℚ) : Except String (List NpArray × ℕ) :=
  match mask_companions (st.getD i default) pxsc cent mrad ra_off de_off with
  | .error e => .error e
  | .ok out => .ok (st ++ [out], st.length)

/-- Heap-level view of `mask_bar`: as for `mask_companions_heap`, the copy on
line 475 is the only array written to. -/
noncomputable def mask_bar_heap (st : List NpArray) (i : ℕ) (cent : ℚ × ℚ)
    (ranges : List (ℚ × ℚ)) : Except String (List NpArray × ℕ) :=
  match mask_bar (st.getD i default) cent ranges with
  | .error e => .error e
  | .ok out => .ok (st ++ [out], st.length)

/-- Follows the words of the spec, for comparison with the source formula
`ttCode`: the position angle as "arctan2 of (x-offset, y-offset) converted to
degrees and normalized to [0,360)" — without the negation that the source
applies before converting. -/
noncomputable def ttClaim (cent : ℚ × ℚ) (W H n : ℕ) : ℝ :=
  mod360 ((180 / Real.pi) *
    arctan2 ((((pixX W n : ℚ) - cent.1 : ℚ) : ℝ)) ((((pixY W H n : ℚ) - cent.2 : ℚ) : ℝ)))

theorem maskFrom_length (f : ℕ → Bool) :
    ∀ (k : ℕ) (l : List Val), (maskFrom f k l).length = l.length := by
  intro k l
  induction l generalizing k with
  | nil => rfl
  | cons v rest ih => simp [maskFrom, ih]

theorem maskFrom_getD (f : ℕ → Bool) :
    ∀ (l : List Val) (k n : ℕ), n < l.length →
      (maskFrom f k l).getD n none = if f (k + n) then none else l.getD n none := by
  intro l
  induction l with
  | nil => intro k n h; simp at h
  | cons v rest ih =>
    intro k n h
    cases n with
    | zero => simp [maskFrom]
    | succ m =>
      have hm : m < rest.length := by
        simp at h
        omega
      have h2 : k + 1 + m = k + (m + 1) := by omega
      simp only [maskFrom, List.getD_cons_succ]
      rw [ih (k + 1) m hm, h2]

theorem mask_companions_eq (data : NpArray) (pxsc : ℚ) (cent : ℚ × ℚ) (mrad : ℚ)
    (ra_off de_off : List ℚ) (h3 : data.shape.length = 3) :
    mask_companions data pxsc cent mrad ra_off de_off =
      .ok ⟨data.shape,
        maskFrom (compMaskedB pxsc cent mrad ra_off de_off
          (data.shape.getD 2 0) (data.shape.getD 1 0)) 0 data.data⟩ := by
  simp [mask_companions, h3]

theorem mask_companions_error (data : NpArray) (pxsc : ℚ) (cent : ℚ × ℚ) (mrad : ℚ)
    (ra_off de_off : List ℚ) (h3 : data.shape.length ≠ 3) :
    mask_companions data pxsc cent mrad ra_off de_off =
      .error ("Data has invalid shape") := by
  simp [mask_companions, h3]

/-- The boolean companion-mask test holds iff some listed companion has the
pixel within its exclusion disk, phrased via the projected source position
`(cent.1 - ra/pxsc, cent.2 + de/pxsc)`. -/
theorem compMaskedB_iff (pxsc : ℚ) (cent : ℚ × ℚ) (mrad : ℚ)
    (ra_off de_off : List ℚ) (W H n : ℕ) :
    compMaskedB pxsc cent mrad ra_off de_off W H n = true ↔
      ∃ rd ∈ ra_off.zip de_off, 0 ≤ mrad ∧
        ((pixX W n : ℚ) - (cent.1 - rd.1 / pxsc)) ^ 2 +
          ((pixY W H n : ℚ) - (cent.2 + rd.2 / pxsc)) ^ 2 ≤ mrad ^ 2 := by
  unfold compMaskedB
  rw [List.any_eq_true]
  constructor
  · rintro ⟨rd, hmem, hdec⟩
    rw [decide_eq_true_iff] at hdec
    refine ⟨rd, hmem, hdec.1, ?_⟩
    have hre : ((pixX W n : ℚ) - (cent.1 - rd.1 / pxsc)) ^ 2 +
        ((pixY W H n : ℚ) - (cent.2 + rd.2 / pxsc)) ^ 2 =
        compDist2 pxsc cent rd W H n := by
      unfold compDist2; ring
    rw [hre]
    exact hdec.2
  · rintro ⟨rd, hmem, hr, hle⟩
    refine ⟨rd, hmem, ?_⟩
    rw [decide_eq_true_iff]
    refine ⟨hr, ?_⟩
    have hre : compDist2 pxsc cent rd W H n =
        ((pixX W n : ℚ) - (cent.1 - rd.1 / pxsc)) ^ 2 +
          ((pixY W H n : ℚ) - (cent.2 + rd.2 / pxsc)) ^ 2 := by
      unfold compDist2; ring
    rw [hre]
    exact hle

theorem restoreFrom_length (inR : ℕ → Prop) (orig : List Val) :
    ∀ (k : ℕ) (cur : List Val), (restoreFrom inR orig k cur).length = cur.length := by
  intro k cur
  induction cur generalizing k with
  | nil => rfl
  | cons c rest ih => simp [restoreFrom, ih]

open Classical in
theorem restoreFrom_getD (inR : ℕ → Prop) (orig : List Val) :
    ∀ (cur : List Val) (k n : ℕ), n < cur.length →
      (restoreFrom inR orig k cur).getD n none =
        if inR (k + n) then orig.getD (k + n) none else cur.getD n none := by
  intro cur
  induction cur with
  | nil => intro k n h; simp at h
  | cons c rest ih =>
    intro k n h
    cases n with
    | zero => simp [restoreFrom]
    | succ m =>
      have hm : m < rest.length := by
        simp at h
        omega
      have h2 : k + 1 + m = k + (m + 1) := by omega
      simp only [restoreFrom, List.getD_cons_succ]
      rw [ih (k + 1) m hm, h2]

theorem barFold_length (cent : ℚ × ℚ) (W H : ℕ) (orig : List Val) :
    ∀ (rs : List (ℚ × ℚ)) (init : List Val),
      (rs.foldl (fun cur r => restoreFrom (inRangeTT cent W H r) orig 0 cur) init).length =
        init.length := by
  intro rs
  induction rs with
  | nil => intro init; rfl
  | cons r rest ih =>
    intro init
    simp only [List.foldl_cons]
    rw [ih, restoreFrom_length]

open Classical in
theorem barFold_getD (cent : ℚ × ℚ) (W H : ℕ) (orig : List Val) :
    ∀ (rs : List (ℚ × ℚ)) (init : List Val), init.length = orig.length →
      ∀ n, n < orig.length →
        (rs.foldl (fun cur r => restoreFrom (inRangeTT cent W H r) orig 0 cur) init).getD n none =
          if ∃ r ∈ rs, inRangeTT cent W H r n then orig.getD n none else init.getD n none := by
  intro rs
  induction rs with
  | nil =>
    intro init hlen n hn
    simp
  | cons r rest ih =>
    intro init hlen n hn
    simp only [List.foldl_cons]
    have hlen1 : (restoreFrom (inRangeTT cent W H r) orig 0 init).length = orig.length := by
      rw [restoreFrom_length, hlen]
    rw [ih _ hlen1 n hn]
    have hstep := restoreFrom_getD (inRangeTT cent W H r) orig init 0 n (by rw [hlen]; exact hn)
    simp only [Nat.zero_add] at hstep
    rw [hstep]
    by_cases hrest : ∃ r' ∈ rest, inRangeTT cent W H r' n
    · have hall : ∃ r' ∈ r :: rest, inRangeTT cent W H r' n := by
        obtain ⟨r', hr', hin⟩ := hrest
        exact ⟨r', List.mem_cons_of_mem _ hr', hin⟩
      simp [hrest, hall]
    · by_cases hr0 : inRangeTT cent W H r n
      · have hall : ∃ r' ∈ r :: rest, inRangeTT cent W H r' n :=
          ⟨r, List.mem_cons_self _ _, hr0⟩
        simp [hrest, hall, hr0]
      · have hall : ¬∃ r' ∈ r :: rest, inRangeTT cent W H r' n := by
          rintro ⟨r', hr', hin⟩
          rcases List.mem_cons.mp hr' with h | h
          · exact hr0 (h ▸ hin)
          · exact hrest ⟨r', h, hin⟩
        simp [hrest, hall, hr0]

theorem map_const_none_getD (orig : List Val) :
    ∀ n, n < orig.length → ((orig.map fun _ => (none : Val)).getD n none) = none := by
  intro n hn
  induction orig generalizing n with
  | nil => simp at hn
  | cons v rest ih =>
    cases n with
    | zero => simp
    | succ m =>
      have hm : m < rest.length := by
        simp at hn
        omega
      simp only [List.map_cons, List.getD_cons_succ]
      exact ih m hm

open Classical in
/-- Closed form of the `mask_bar` loop for a nonempty slice list: a pixel is
kept from the original exactly when its angle lies in some slice, inclusively;
all other pixels are NaN. -/
theorem barCore_getD (cent : ℚ × ℚ) (W H : ℕ) (orig : List Val)
    (r0 : ℚ × ℚ) (rest : List (ℚ × ℚ)) (n : ℕ) (hn : n < orig.length) :
    (barCore cent W H orig (r0 :: rest)).getD n none =
      if ∃ r ∈ r0 :: rest, inRangeTT cent W H r n then orig.getD n none else none := by
  unfold barCore
  have hlen : (restoreFrom (inRangeTT cent W H r0) orig 0 (orig.map fun _ => none)).length =
      orig.length := by
    rw [restoreFrom_length]
    simp
  rw [barFold_getD cent W H orig rest _ hlen n hn]
  have hstep := restoreFrom_getD (inRangeTT cent W H r0) orig (orig.map fun _ => none) 0 n
    (by simpa using hn)
  simp only [Nat.zero_add] at hstep
  rw [hstep, map_const_none_getD orig n hn]
  by_cases hrest : ∃ r' ∈ rest, inRangeTT cent W H r' n
  · have hall : ∃ r' ∈ r0 :: rest, inRangeTT cent W H r' n := by
      obtain ⟨r', hr', hin⟩ := hrest
      exact ⟨r', List.mem_cons_of_mem _ hr', hin⟩
    simp [hrest, hall]
  · by_cases hr0 : inRangeTT cent W H r0 n
    · have hall : ∃ r' ∈ r0 :: rest, inRangeTT cent W H r' n :=
        ⟨r0, List.mem_cons_self _ _, hr0⟩
      simp [hrest, hall, hr0]
    · have hall : ¬∃ r' ∈ r0 :: rest, inRangeTT cent W H r' n := by
        rintro ⟨r', hr', hin⟩
        rcases List.mem_cons.mp hr' with h | h
        · exact hr0 (h ▸ hin)
        · exact hrest ⟨r', h, hin⟩
      simp [hrest, hall, hr0]

theorem barCore_length (cent : ℚ × ℚ) (W H : ℕ) (orig : List Val) :
    ∀ (rs : List (ℚ × ℚ)), (barCore cent W H orig rs).length = orig.length := by
  intro rs
  cases rs with
  | nil => rfl
  | cons r0 rest =>
    unfold barCore
    rw [barFold_length, restoreFrom_length]
    simp

theorem mask_bar_eq (data : NpArray) (cent : ℚ × ℚ) (ranges : List (ℚ × ℚ))
    (h3 : data.shape.length = 3) :
    mask_bar data cent ranges =
      .ok ⟨data.shape,
        barCore cent (data.shape.getD 2 0) (data.shape.getD 1 0) data.data ranges⟩ := by
  simp [mask_bar, h3]

theorem mask_bar_error (data : NpArray) (cent : ℚ × ℚ) (ranges : List (ℚ × ℚ))
    (h3 : data.shape.length ≠ 3) :
    mask_bar data cent ranges = .error ("Data has invalid shape") := by
  simp [mask_bar, h3]

theorem npLoad_recomputeSave (fs : FS) (t : InjTable) :
    npLoad (recomputeSave fs t) .flux_all = some t.flux_all ∧
    npLoad (recomputeSave fs t) .seps_all = some t.seps_all ∧
    npLoad (recomputeSave fs t) .pas_all = some t.pas_all ∧
    npLoad (recomputeSave fs t) .flux_retr_all = some t.flux_retr_all := by
  refine ⟨?_, ?_, ?_, ?_⟩ <;> simp [recomputeSave, npSave, npLoad]

theorem exists_lower_bound (g : List ℚ) (hne : g ≠ []) : ∃ lo ∈ g, ∀ x ∈ g, lo ≤ x := by
  induction g with
  | nil => exact absurd rfl hne
  | cons a rest ih =>
    cases rest with
    | nil =>
      refine ⟨a, List.mem_cons_self _ _, ?_⟩
      intro x hx
      simp at hx
      simp [hx]
    | cons b rest2 =>
      obtain ⟨lo, hmem, hlo⟩ := ih (by simp)
      by_cases hab : a ≤ lo
      · refine ⟨a, List.mem_cons_self _ _, ?_⟩
        intro x hx
        rcases List.mem_cons.mp hx with h | h
        · simp [h]
        · exact le_trans hab (hlo x h)
      · refine ⟨lo, List.mem_cons_of_mem _ hmem, ?_⟩
        intro x hx
        rcases List.mem_cons.mp hx with h | h
        · exact h ▸ le_of_not_le hab
        · exact hlo x h

theorem exists_upper_bound (g : List ℚ) (hne : g ≠ []) : ∃ hi ∈ g, ∀ x ∈ g, x ≤ hi := by
  induction g with
  | nil => exact absurd rfl hne
  | cons a rest ih =>
    cases rest with
    | nil =>
      refine ⟨a, List.mem_cons_self _ _, ?_⟩
      intro x hx
      simp at hx
      simp [hx]
    | cons b rest2 =>
      obtain ⟨hi, hmem, hhi⟩ := ih (by simp)
      by_cases hab : hi ≤ a
      · refine ⟨a, List.mem_cons_self _ _, ?_⟩
        intro x hx
        rcases List.mem_cons.mp hx with h | h
        · simp [h]
        · exact le_trans (hhi x h) hab
      · refine ⟨hi, List.mem_cons_of_mem _ hmem, ?_⟩
        intro x hx
        rcases List.mem_cons.mp hx with h | h
        · exact h ▸ le_of_not_le (by simpa using hab)
        · exact hhi x h

/-- The median of a nonempty list lies between any lower bound and any upper
bound of its entries: it is either an order statistic of the list or the mean
of two of them. -/
theorem medianQ_bounds (g : List ℚ) (hne : g ≠ []) (lo hi : ℚ)
    (hlo : ∀ x ∈ g, lo ≤ x) (hhi : ∀ x ∈ g, x ≤ hi) :
    lo ≤ medianQ g ∧ medianQ g ≤ hi := by
  have hperm : (g.insertionSort (· ≤ ·)).Perm g := List.perm_insertionSort _ g
  have hslen : (g.insertionSort (· ≤ ·)).length = g.length := hperm.length_eq
  have hpos : 0 < g.length := List.length_pos.mpr hne
  have hbnd : ∀ n, n < g.length →
      lo ≤ (g.insertionSort (· ≤ ·)).getD n 0 ∧ (g.insertionSort (· ≤ ·)).getD n 0 ≤ hi := by
    intro n hn
    have hn' : n < (g.insertionSort (· ≤ ·)).length := by rw [hslen]; exact hn
    rw [List.getD_eq_getElem _ _ hn']
    have hmem : (g.insertionSort (· ≤ ·))[n] ∈ g :=
      hperm.mem_iff.mp (List.getElem_mem hn')
    exact ⟨hlo _ hmem, hhi _ hmem⟩
  unfold medianQ
  by_cases hodd : g.length % 2 = 1
  · rw [if_pos hodd]
    exact hbnd _ (Nat.div_lt_self hpos (by norm_num))
  · rw [if_neg hodd]
    have h2 : 2 ≤ g.length := by omega
    have hk : g.length / 2 < g.length := Nat.div_lt_self hpos (by norm_num)
    have hk1 : g.length / 2 - 1 < g.length := by omega
    obtain ⟨ha1, ha2⟩ := hbnd _ hk1
    obtain ⟨hb1, hb2⟩ := hbnd _ hk
    constructor
    · linarith
    · linarith

theorem interpSeg_right (x : ℚ) :
    ∀ (rest : List (ℚ × Val)) (p : ℚ × Val), p.1 < x → (∀ q ∈ rest, q.1 < x) →
      interpSeg x p rest = ((p :: rest).getLastD (0, none)).2 := by
  intro rest
  induction rest with
  | nil =>
    intro p hp _
    simp [interpSeg]
  | cons q rest2 ih =>
    intro p hp hall
    obtain ⟨x0, f0⟩ := p
    obtain ⟨x1, f1⟩ := q
    have hx0 : x ≠ x0 := by
      simp at hp
      exact fun h => absurd h.symm (ne_of_lt hp)
    have hx1 : x1 < x := hall _ (List.mem_cons_self _ _)
    have hx1' : ¬x ≤ x1 := not_le.mpr hx1
    simp only [interpSeg, if_neg hx0, if_neg hx1']
    rw [ih (x1, f1) hx1 (fun q hq => hall q (List.mem_cons_of_mem _ hq))]
    simp

theorem zip_getLastD (l1 : List ℚ) :
    ∀ (l2 : List Val), l1.length = l2.length → l1 ≠ [] →
      (l1.zip l2).getLastD (0, none) = (l1.getLastD 0, l2.getLastD none) := by
  induction l1 with
  | nil => intro l2 _ hne; exact absurd rfl hne
  | cons a rest ih =>
    intro l2 hlen hne
    cases l2 with
    | nil => simp at hlen
    | cons b rest2 =>
      cases rest with
      | nil =>
        cases rest2 with
        | nil => simp
        | cons c r3 => simp at hlen
      | cons a2 r2 =>
        cases rest2 with
        | nil => simp at hlen
        | cons b2 r3 =>
          have hlen2 : (a2 :: r2).length = (b2 :: r3).length := by
            simp at hlen
            simpa using hlen
          have := ih (b2 :: r3) hlen2 (by simp)
          simpa using this

/-- Behavior of `np.interp` left of the sampled range: clamps to the first sample value. -/
theorem np_interp_left (x x0 : ℚ) (xs : List ℚ) (f0 : Val) (fs : List Val)
    (hx : x < x0) : np_interp x (x0 :: xs) (f0 :: fs) = f0 := by
  simp [np_interp, hx]

/-- Behavior of `np.interp` right of the sampled range: clamps to the last sample value. -/
theorem np_interp_right (x : ℚ) (xp : List ℚ) (fp : List Val)
    (hne : xp ≠ []) (hlen : xp.length = fp.length) (hall : ∀ a ∈ xp, a < x) :
    np_interp x xp fp = fp.getLastD none := by
  cases xp with
  | nil => exact absurd rfl hne
  | cons x0 xs =>
    cases fp with
    | nil => simp at hlen
    | cons f0 fs =>
      have hx0 : x0 < x := hall _ (List.mem_cons_self _ _)
      have hnlt : ¬x < x0 := not_lt.mpr (le_of_lt hx0)
      simp only [np_interp, List.zip_cons_cons, if_neg hnlt]
      have hallz : ∀ q ∈ xs.zip fs, q.1 < x := by
        intro q hq
        exact hall q.1 (List.mem_cons_of_mem _ (List.of_mem_zip hq).1)
      rw [interpSeg_right x (xs.zip fs) (x0, f0) hx0 hallz]
      have hcons : ((x0, f0) :: xs.zip fs) = (x0 :: xs).zip (f0 :: fs) := by simp
      rw [hcons, zip_getLastD (x0 :: xs) (f0 :: fs) (by simpa using hlen) (by simp)]

theorem boolIndex_good_cons (f : Val) (rest : List Val) :
    boolIndex (good_mask (f :: rest)) (f :: rest) =
      if f.isSome then f :: boolIndex (good_mask rest) rest
      else boolIndex (good_mask rest) rest := by
  by_cases hf : f.isSome = true <;>
    simp [boolIndex, good_mask, List.filter_cons, hf]

theorem boolIndex_good_cons_other (f : Val) (rest : List Val) (s : ℚ) (rest2 : List ℚ) :
    boolIndex (good_mask (f :: rest)) (s :: rest2) =
      if f.isSome then s :: boolIndex (good_mask rest) rest2
      else boolIndex (good_mask rest) rest2 := by
  by_cases hf : f.isSome = true <;>
    simp [boolIndex, good_mask, List.filter_cons, hf]

theorem boolIndex_good_all (flux : List Val) :
    ∀ v ∈ boolIndex (good_mask flux) flux, v.isSome = true := by
  induction flux with
  | nil => intro v hv; simp [boolIndex, good_mask] at hv
  | cons f rest ih =>
    intro v hv
    rw [boolIndex_good_cons] at hv
    by_cases hf : f.isSome = true
    · rw [if_pos hf] at hv
      rcases List.mem_cons.mp hv with h | h
      · rw [h]; exact hf
      · exact ih v h
    · rw [if_neg hf] at hv
      exact ih v hv

/-- Indexing both the flux and the separation list by the `good` mask keeps
exactly the pairs whose flux is not NaN, in order:
`flux_inject[good]` and `seps_inject[good]` stay aligned. -/
theorem good_filter_zip :
    ∀ (flux : List Val) (seps : List ℚ), flux.length = seps.length →
      (boolIndex (good_mask flux) flux).zip (boolIndex (good_mask flux) seps) =
        (flux.zip seps).filter (fun p => p.1.isSome) := by
  intro flux
  induction flux with
  | nil => intro seps _; simp [boolIndex, good_mask]
  | cons f rest ih =>
    intro seps hlen
    cases seps with
    | nil => simp at hlen
    | cons s rest2 =>
      have hlen2 : rest.length = rest2.length := by simpa using hlen
      rw [boolIndex_good_cons, boolIndex_good_cons_other]
      by_cases hf : f.isSome = true
      · rw [if_pos hf, if_pos hf]
        simp [List.filter_cons, hf, ih rest2 hlen2]
      · rw [if_neg hf, if_neg hf]
        simp [List.filter_cons, hf, ih rest2 hlen2]

/-- C1: for every 3-D cube, nonzero pixel scale, center, radius and source
lists, `mask_companions` returns a cube of the same shape in which every pixel
within Euclidean distance `mrad` of a projected source position
`(cent.1 - ra/pxsc, cent.2 + de/pxsc)` is NaN in every frame, and every pixel
strictly outside all exclusion disks equals the corresponding input pixel. -/
theorem mask_companions_spec (data : NpArray) (pxsc : ℚ) (cent : ℚ × ℚ) (mrad : ℚ)
    (ra_off de_off : List ℚ) (h3 : data.shape.length = 3) (_hp : pxsc ≠ 0) :
    ∃ out, mask_companions data pxsc cent mrad ra_off de_off = Except.ok out ∧
      out.shape = data.shape ∧ out.data.length = data.data.length ∧
      ∀ n, n < data.data.length →
        ((∃ rd ∈ ra_off.zip de_off, 0 ≤ mrad ∧
            ((pixX (data.shape.getD 2 0) n : ℚ) - (cent.1 - rd.1 / pxsc)) ^ 2 +
              ((pixY (data.shape.getD 2 0) (data.shape.getD 1 0) n : ℚ) -
                (cent.2 + rd.2 / pxsc)) ^ 2 ≤ mrad ^ 2) →
          out.data.getD n none = none) ∧
        ((∀ rd ∈ ra_off.zip de_off, ¬(0 ≤ mrad ∧
            ((pixX (data.shape.getD 2 0) n : ℚ) - (cent.1 - rd.1 / pxsc)) ^ 2 +
              ((pixY (data.shape.getD 2 0) (data.shape.getD 1 0) n : ℚ) -
                (cent.2 + rd.2 / pxsc)) ^ 2 ≤ mrad ^ 2)) →
          out.data.getD n none = data.data.getD n none) := by
  refine ⟨_, mask_companions_eq data pxsc cent mrad ra_off de_off h3, rfl,
    maskFrom_length _ _ _, ?_⟩
  intro n hn
  constructor
  · intro hex
    rw [maskFrom_getD _ data.data 0 n hn]
    have hb : compMaskedB pxsc cent mrad ra_off de_off
        (data.shape.getD 2 0) (data.shape.getD 1 0) (0 + n) = true := by
      rw [Nat.zero_add]
      exact (compMaskedB_iff pxsc cent mrad ra_off de_off _ _ n).mpr hex
    rw [if_pos hb]
  · intro hall
    rw [maskFrom_getD _ data.data 0 n hn]
    have hb : ¬(compMaskedB pxsc cent mrad ra_off de_off
        (data.shape.getD 2 0) (data.shape.getD 1 0) (0 + n) = true) := by
      rw [Nat.zero_add, compMaskedB_iff]
      rintro ⟨rd, hm, hP1, hP2⟩
      exact hall rd hm ⟨hP1, hP2⟩
    rw [if_neg (by simpa using hb)]

/-- Witness for C1 at a concrete 1×2×2 cube with one source at the center
and exclusion radius 1. -/
theorem mask_companions_spec_witness :
    ((⟨[1, 2, 2], [some 1, some 2, some 3, some 4]⟩ : NpArray).shape.length = 3 ∧
      (1 : ℚ) ≠ 0) ∧
    (∃ out, mask_companions ⟨[1, 2, 2], [some 1, some 2, some 3, some 4]⟩ 1 (0, 0) 1
        [0] [0] = Except.ok out ∧
      out.shape = (⟨[1, 2, 2], [some 1, some 2, some 3, some 4]⟩ : NpArray).shape ∧
      out.data.length =
        (⟨[1, 2, 2], [some 1, some 2, some 3, some 4]⟩ : NpArray).data.length ∧
      ∀ n, n < (⟨[1, 2, 2], [some 1, some 2, some 3, some 4]⟩ : NpArray).data.length →
        ((∃ rd ∈ ([0] : List ℚ).zip ([0] : List ℚ), (0 : ℚ) ≤ 1 ∧
            ((pixX 2 n : ℚ) - ((0 : ℚ) - rd.1 / 1)) ^ 2 +
              ((pixY 2 2 n : ℚ) - ((0 : ℚ) + rd.2 / 1)) ^ 2 ≤ (1 : ℚ) ^ 2) →
          out.data.getD n none = none) ∧
        ((∀ rd ∈ ([0] : List ℚ).zip ([0] : List ℚ), ¬((0 : ℚ) ≤ 1 ∧
            ((pixX 2 n : ℚ) - ((0 : ℚ) - rd.1 / 1)) ^ 2 +
              ((pixY 2 2 n : ℚ) - ((0 : ℚ) + rd.2 / 1)) ^ 2 ≤ (1 : ℚ) ^ 2)) →
          out.data.getD n none =
            (⟨[1, 2, 2], [some 1, some 2, some 3, some 4]⟩ : NpArray).data.getD n none)) :=
  ⟨⟨by decide, by decide⟩,
    mask_companions_spec ⟨[1, 2, 2], [some 1, some 2, some 3, some 4]⟩ 1 (0, 0) 1
      [0] [0] (by decide) (by decide)⟩

/-- C8: both masking operations fail fast with the descriptive shape error
whenever the cube is not exactly 3-dimensional, and on 3-D input they return
a cube of unchanged shape and size (no silent coercion). -/
theorem shape_error_spec (data : NpArray) (pxsc : ℚ) (cent : ℚ × ℚ) (mrad : ℚ)
    (ra_off de_off : List ℚ) (ranges : List (ℚ × ℚ)) :
    (data.shape.length ≠ 3 →
      mask_companions data pxsc cent mrad ra_off de_off =
        .error ("Data has invalid shape") ∧
      mask_bar data cent ranges = .error ("Data has invalid shape")) ∧
    (data.shape.length = 3 →
      ∃ o1 o2, mask_companions data pxsc cent mrad ra_off de_off = .ok o1 ∧
        mask_bar data cent ranges = .ok o2 ∧
        o1.shape = data.shape ∧ o1.data.length = data.data.length ∧
        o2.shape = data.shape ∧ o2.data.length = data.data.length) := by
  constructor
  · intro h
    exact ⟨mask_companions_error _ _ _ _ _ _ h, mask_bar_error _ _ _ h⟩
  · intro h
    refine ⟨_, _, mask_companions_eq _ _ _ _ _ _ h, mask_bar_eq _ _ _ h, rfl, ?_, rfl, ?_⟩
    · exact maskFrom_length _ _ _
    · exact barCore_length _ _ _ _ _

/-- Witness for C8: a 2-D array errors out of both operations; a 3-D array
passes through both with unchanged shape. -/
theorem shape_error_spec_witness :
    (mask_companions ⟨[2, 2], [some 1]⟩ 1 (0, 0) 1 [] [] =
        .error ("Data has invalid shape") ∧
      mask_bar ⟨[2, 2], [some 1]⟩ (0, 0) [] = .error ("Data has invalid shape")) ∧
    (∃ o1 o2, mask_companions ⟨[1, 1, 1], [some 1]⟩ 1 (0, 0) 1 [] [] = .ok o1 ∧
      mask_bar ⟨[1, 1, 1], [some 1]⟩ (0, 0) [] = .ok o2 ∧
      o1.shape = (⟨[1, 1, 1], [some 1]⟩ : NpArray).shape ∧
      o1.data.length = (⟨[1, 1, 1], [some 1]⟩ : NpArray).data.length ∧
      o2.shape = (⟨[1, 1, 1], [some 1]⟩ : NpArray).shape ∧
      o2.data.length = (⟨[1, 1, 1], [some 1]⟩ : NpArray).data.length) :=
  ⟨(shape_error_spec ⟨[2, 2], [some 1]⟩ 1 (0, 0) 1 [] [] []).1 (by decide),
    (shape_error_spec ⟨[1, 1, 1], [some 1]⟩ 1 (0, 0) 1 [] [] []).2 (by decide)⟩

/-- C10: on 3-D input, every output element of `mask_companions` and of
`mask_bar` is either NaN or exactly the corresponding input element —
masking never introduces new finite values and never rescales. -/
theorem masking_no_new_values_spec (data : NpArray) (pxsc : ℚ) (cent : ℚ × ℚ)
    (mrad : ℚ) (ra_off de_off : List ℚ) (ranges : List (ℚ × ℚ))
    (h3 : data.shape.length = 3) :
    ∃ oc ob, mask_companions data pxsc cent mrad ra_off de_off = .ok oc ∧
      mask_bar data cent ranges = .ok ob ∧
      (∀ n, n < oc.data.length →
        oc.data.getD n none = none ∨ oc.data.getD n none = data.data.getD n none) ∧
      (∀ n, n < ob.data.length →
        ob.data.getD n none = none ∨ ob.data.getD n none = data.data.getD n none) := by
  refine ⟨_, _, mask_companions_eq _ _ _ _ _ _ h3, mask_bar_eq _ _ _ h3, ?_, ?_⟩
  · intro n hn
    have hn' : n < data.data.length := by
      rw [maskFrom_length] at hn
      exact hn
    rw [maskFrom_getD _ data.data 0 n hn']
    by_cases hb : compMaskedB pxsc cent mrad ra_off de_off
        (data.shape.getD 2 0) (data.shape.getD 1 0) (0 + n) = true
    · left
      rw [if_pos hb]
    · right
      rw [if_neg (by simpa using hb)]
  · intro n hn
    have hn' : n < data.data.length := by
      rw [barCore_length] at hn
      exact hn
    cases ranges with
    | nil =>
      right
      rfl
    | cons r0 rest =>
      rw [barCore_getD _ _ _ _ _ _ n hn']
      by_cases hr : ∃ r ∈ r0 :: rest,
          inRangeTT cent (data.shape.getD 2 0) (data.shape.getD 1 0) r n
      · right
        rw [if_pos hr]
      · left
        rw [if_neg hr]

/-- Witness for C10 at a concrete 1×1×2 cube. -/
theorem masking_no_new_values_spec_witness :
    ((⟨[1, 1, 2], [some 5, some 7]⟩ : NpArray).shape.length = 3) ∧
    (∃ oc ob, mask_companions ⟨[1, 1, 2], [some 5, some 7]⟩ 1 (0, 0) 1 [0] [0] = .ok oc ∧
      mask_bar ⟨[1, 1, 2], [some 5, some 7]⟩ (0, 0) [(0, 360)] = .ok ob ∧
      (∀ n, n < oc.data.length →
        oc.data.getD n none = none ∨
          oc.data.getD n none =
            (⟨[1, 1, 2], [some 5, some 7]⟩ : NpArray).data.getD n none) ∧
      (∀ n, n < ob.data.length →
        ob.data.getD n none = none ∨
          ob.data.getD n none =
            (⟨[1, 1, 2], [some 5, some 7]⟩ : NpArray).data.getD n none)) :=
  ⟨by decide,
    masking_no_new_values_spec ⟨[1, 1, 2], [some 5, some 7]⟩ 1 (0, 0) 1 [0] [0]
      [(0, 360)] (by decide)⟩

/-- C2 evaluated at the failing input: with an empty slice list `mask_bar`
returns the input cube unchanged — the pixel keeps the finite value 1 — while
the claim (and the docstring of the function, which promises that everything
but the supplied slices is masked out) requires every pixel to be NaN. The
all-NaN initialization sits inside the loop over slices and never runs when
the list is empty. -/
theorem mask_bar_empty_ranges_eval :
    mask_bar ⟨[1, 1, 1], [some 1]⟩ (0, 0) [] = .ok ⟨[1, 1, 1], [some 1]⟩ ∧
    (some (1 : ℚ) : Val) ≠ none := by
  constructor
  · exact mask_bar_eq _ _ _ rfl
  · exact Option.some_ne_none 1

/-- C3: with `overwrite` false, a successful load of all four persisted
injection-table artifacts skips injection and recovery entirely and reuses the
loaded table with no writes (so a second run is a byte-identical no-op on the
store); a failed load of any artifact falls back to full recomputation without
raising; and immediately rerunning after any run never recomputes and leaves
the store untouched. -/
theorem cal_cache_spec (fs : FS) (t t' : InjTable) (a b c d : Artifact) :
    (npLoad fs .flux_all = some a → npLoad fs .seps_all = some b →
      npLoad fs .pas_all = some c → npLoad fs .flux_retr_all = some d →
      cal_cache_step fs false t = (fs, ⟨a, b, c, d⟩, false)) ∧
    ((npLoad fs .flux_all = none ∨ npLoad fs .seps_all = none ∨
      npLoad fs .pas_all = none ∨ npLoad fs .flux_retr_all = none) →
      cal_cache_step fs false t = (recomputeSave fs t, t, true)) ∧
    (∀ ow : Bool,
      cal_cache_step (cal_cache_step fs ow t).1 false t' =
        ((cal_cache_step fs ow t).1, (cal_cache_step fs ow t).2.1, false)) := by
  refine ⟨?_, ?_, ?_⟩
  · intro h1 h2 h3 h4
    simp [cal_cache_step, h1, h2, h3, h4]
  · intro h
    rcases h1 : npLoad fs .flux_all with _ | a1 <;>
    rcases h2 : npLoad fs .seps_all with _ | b1 <;>
    rcases h3 : npLoad fs .pas_all with _ | c1 <;>
    rcases h4 : npLoad fs .flux_retr_all with _ | d1 <;>
      simp_all [cal_cache_step]
  · intro ow
    obtain ⟨l1, l2, l3, l4⟩ := npLoad_recomputeSave fs t
    cases ow with
    | true => simp [cal_cache_step, l1, l2, l3, l4]
    | false =>
      rcases h1 : npLoad fs .flux_all with _ | a1 <;>
      rcases h2 : npLoad fs .seps_all with _ | b1 <;>
      rcases h3 : npLoad fs .pas_all with _ | c1 <;>
      rcases h4 : npLoad fs .flux_retr_all with _ | d1 <;>
        simp [cal_cache_step, h1, h2, h3, h4, l1, l2, l3, l4]

/-- Witness for C3 at a concrete store holding all four artifacts. -/
theorem cal_cache_spec_witness :
    (npLoad [(FName.flux_all, ([1] : Artifact)), (FName.seps_all, [2]),
        (FName.pas_all, [3]), (FName.flux_retr_all, [4])] .flux_all = some [1]) ∧
    cal_cache_step [(FName.flux_all, ([1] : Artifact)), (FName.seps_all, [2]),
        (FName.pas_all, [3]), (FName.flux_retr_all, [4])] false ⟨[], [], [], []⟩ =
      ([(FName.flux_all, ([1] : Artifact)), (FName.seps_all, [2]),
        (FName.pas_all, [3]), (FName.flux_retr_all, [4])], ⟨[1], [2], [3], [4]⟩, false) :=
  ⟨rfl,
    (cal_cache_spec [(FName.flux_all, ([1] : Artifact)), (FName.seps_all, [2]),
        (FName.pas_all, [3]), (FName.flux_retr_all, [4])] ⟨[], [], [], []⟩
        ⟨[], [], [], []⟩ [1] [2] [3] [4]).1 rfl rfl rfl rfl⟩

/-- C4: calibration divides the raw contrasts elementwise by the throughput
model evaluated at the raw separations (converted from arcsec to pixels),
keeps the separation axis unchanged, and reduces to the identity when the
model evaluates to exactly 1 at every raw separation. -/
theorem cal_corr_spec (raw : Curve) (p : List ℝ) (pxsc : ℝ)
    (hlen : raw.seps.length = raw.cons.length) :
    (cal_corr raw p pxsc).seps = raw.seps ∧
    (cal_corr raw p pxsc).cons.length = raw.cons.length ∧
    (∀ i, i < raw.cons.length →
      (cal_corr raw p pxsc).cons.getD i 0 =
        raw.cons.getD i 0 / func p (raw.seps.getD i 0 * 1000 / pxsc)) ∧
    ((∀ i, i < raw.seps.length → func p (raw.seps.getD i 0 * 1000 / pxsc) = 1) →
      (cal_corr raw p pxsc).cons = raw.cons) := by
  have hlz : (cal_corr raw p pxsc).cons.length = raw.cons.length := by
    simp [cal_corr, hlen]
  have hpt : ∀ i, i < raw.cons.length →
      (cal_corr raw p pxsc).cons.getD i 0 =
        raw.cons.getD i 0 / func p (raw.seps.getD i 0 * 1000 / pxsc) := by
    intro i hi
    have hi1 : i < (cal_corr raw p pxsc).cons.length := by rw [hlz]; exact hi
    have hi2 : i < raw.seps.length := by rw [hlen]; exact hi
    rw [List.getD_eq_getElem _ _ hi1, List.getD_eq_getElem _ _ hi,
      List.getD_eq_getElem _ _ hi2]
    simp [cal_corr]
  refine ⟨rfl, hlz, hpt, ?_⟩
  intro hone
  apply List.ext_getElem hlz
  intro i h1 h2
  have h1' : i < raw.cons.length := by rw [← hlz]; exact h1
  have := hpt i h1'
  rw [List.getD_eq_getElem _ _ h1, List.getD_eq_getElem _ _ h1'] at this
  rw [this, hone i (by rw [hlen]; exact h1'), div_one]

/-- Witness for C4: with parameters `[1, 0, 1, 1, 0]` the spec-modelled
logistic evaluates to exactly 1 everywhere, and the calibrated curve equals
the raw curve. -/
theorem cal_corr_spec_witness :
    ((⟨[1], [2]⟩ : Curve).seps.length = (⟨[1], [2]⟩ : Curve).cons.length) ∧
    ((cal_corr ⟨[1], [2]⟩ [1, 0, 1, 1, 0] 1).seps = (⟨[1], [2]⟩ : Curve).seps ∧
      (cal_corr ⟨[1], [2]⟩ [1, 0, 1, 1, 0] 1).cons.length =
        (⟨[1], [2]⟩ : Curve).cons.length ∧
      (∀ i, i < (⟨[1], [2]⟩ : Curve).cons.length →
        (cal_corr ⟨[1], [2]⟩ [1, 0, 1, 1, 0] 1).cons.getD i 0 =
          (⟨[1], [2]⟩ : Curve).cons.getD i 0 /
            func [1, 0, 1, 1, 0] ((⟨[1], [2]⟩ : Curve).seps.getD i 0 * 1000 / 1)) ∧
      ((∀ i, i < (⟨[1], [2]⟩ : Curve).seps.length →
          func [1, 0, 1, 1, 0] ((⟨[1], [2]⟩ : Curve).seps.getD i 0 * 1000 / 1) = 1) →
        (cal_corr ⟨[1], [2]⟩ [1, 0, 1, 1, 0] 1).cons = (⟨[1], [2]⟩ : Curve).cons)) :=
  ⟨rfl, cal_corr_spec ⟨[1], [2]⟩ [1, 0, 1, 1, 0] 1 rfl⟩

/-- C5: the aggregation groups trials by exact separation value and reduces
each group to the median of `flux_retr/flux`; every aggregated value belongs
to a nonempty group and lies within the minimum and maximum of the ratios
contributing to that group. -/
theorem agg_median_bounds (trials : List Trial) (s v : ℚ)
    (h : (s, v) ∈ agg_med trials) :
    v = medianQ (group_tps trials s) ∧ group_tps trials s ≠ [] ∧
    ∃ lo ∈ group_tps trials s, ∃ hi ∈ group_tps trials s,
      (∀ x ∈ group_tps trials s, lo ≤ x) ∧ (∀ x ∈ group_tps trials s, x ≤ hi) ∧
      lo ≤ v ∧ v ≤ hi := by
  obtain ⟨s', hs', heq⟩ := List.mem_map.mp h
  rw [Prod.mk.injEq] at heq
  obtain ⟨hs1, hv⟩ := heq
  subst hs1
  have hmem : s' ∈ trials.map (·.seps) := List.mem_dedup.mp hs'
  obtain ⟨t0, ht0, hts⟩ := List.mem_map.mp hmem
  have htf : t0 ∈ trials.filter fun t => decide (t.seps = s') := by
    rw [List.mem_filter]
    exact ⟨ht0, by rw [decide_eq_true_iff]; exact hts⟩
  have hne : group_tps trials s' ≠ [] := by
    unfold group_tps
    intro hnil
    rw [List.map_eq_nil_iff] at hnil
    rw [hnil] at htf
    simp at htf
  obtain ⟨lo, hlomem, hlo⟩ := exists_lower_bound _ hne
  obtain ⟨hi, hhimem, hhi⟩ := exists_upper_bound _ hne
  obtain ⟨hm1, hm2⟩ := medianQ_bounds _ hne lo hi hlo hhi
  exact ⟨hv.symm, hne, lo, hlomem, hi, hhimem, hlo, hhi,
    hv ▸ hm1, hv ▸ hm2⟩

/-- Witness for C5: two trials at separation 1 with ratios 1/2 and 1/4; the
aggregated median 3/8 lies within the group bounds. -/
theorem agg_median_bounds_witness :
    (((1 : ℚ), (3/8 : ℚ)) ∈
      agg_med [⟨2, 1, 0, 1⟩, ⟨4, 1, 0, 1⟩]) ∧
    ((3/8 : ℚ) = medianQ (group_tps [⟨2, 1, 0, 1⟩, ⟨4, 1, 0, 1⟩] 1) ∧
      group_tps [⟨2, 1, 0, 1⟩, ⟨4, 1, 0, 1⟩] 1 ≠ [] ∧
      ∃ lo ∈ group_tps [⟨2, 1, 0, 1⟩, ⟨4, 1, 0, 1⟩] 1,
        ∃ hi ∈ group_tps [⟨2, 1, 0, 1⟩, ⟨4, 1, 0, 1⟩] 1,
          (∀ x ∈ group_tps [⟨2, 1, 0, 1⟩, ⟨4, 1, 0, 1⟩] 1, lo ≤ x) ∧
          (∀ x ∈ group_tps [⟨2, 1, 0, 1⟩, ⟨4, 1, 0, 1⟩] 1, x ≤ hi) ∧
          lo ≤ (3/8 : ℚ) ∧ (3/8 : ℚ) ≤ hi) := by
  have hd : (([1, 1] : List ℚ)).dedup = [1] := by
    rw [List.dedup_cons_of_mem (by simp)]
    simp
  have hmem : ((1 : ℚ), (3/8 : ℚ)) ∈ agg_med [⟨2, 1, 0, 1⟩, ⟨4, 1, 0, 1⟩] := by
    norm_num [agg_med, medianQ, group_tps, tpsOf, List.insertionSort,
      List.orderedInsert, hd]
  exact ⟨hmem, agg_median_bounds [⟨2, 1, 0, 1⟩, ⟨4, 1, 0, 1⟩] 1 (3/8) hmem⟩

/-- C6 counterexample: `np.interp` queried strictly below the sampled range
returns the first sample value — here `some 7`, a finite value, not NaN —
refuting the claim that out-of-range interpolation produces NaN. -/
theorem np_interp_clamp_cex :
    (0 : ℚ) < 1 ∧ np_interp 0 [1, 2] [some 7, some 9] ≠ none ∧
    np_interp 0 [1, 2] [some 7, some 9] = some 7 := by
  refine ⟨by norm_num, ?_, ?_⟩
  · simp [np_interp]
  · simp [np_interp]

/-- C6 amended: out-of-range interpolation clamps to the nearest endpoint
sample value without raising (so it is NaN exactly when that endpoint contrast
is NaN); an injection flux is NaN exactly when the interpolated contrast at
its separation is NaN; and boolean indexing by `good` removes exactly the
NaN-flux candidates from both the flux list and the separation list, keeping
them aligned, so only non-NaN fluxes reach the injection routine. -/
theorem interp_clamp_filter_spec (x y x0 : ℚ) (xs : List ℚ) (f0 : Val) (fs : List Val)
    (xp : List ℚ) (fp : List Val) (seps : List ℚ) (cons : List Val)
    (pxsc Fstar conv : ℚ) (seps_inject : List ℚ)
    (hx : x < x0) (hne : xp ≠ []) (hlen : xp.length = fp.length)
    (hall : ∀ a ∈ xp, a < y) :
    np_interp x (x0 :: xs) (f0 :: fs) = f0 ∧
    np_interp y xp fp = fp.getLastD none ∧
    (∀ i, i < seps_inject.length →
      ((flux_inject_of seps cons pxsc Fstar conv seps_inject).getD i none).isSome =
        (np_interp (seps_inject.getD i 0 * pxsc / 1000) seps cons).isSome) ∧
    (boolIndex (good_mask (flux_inject_of seps cons pxsc Fstar conv seps_inject))
        (flux_inject_of seps cons pxsc Fstar conv seps_inject)).zip
      (boolIndex (good_mask (flux_inject_of seps cons pxsc Fstar conv seps_inject))
        seps_inject) =
      ((flux_inject_of seps cons pxsc Fstar conv seps_inject).zip seps_inject).filter
        (fun p => p.1.isSome) ∧
    (∀ v ∈ boolIndex (good_mask (flux_inject_of seps cons pxsc Fstar conv seps_inject))
        (flux_inject_of seps cons pxsc Fstar conv seps_inject), v.isSome = true) := by
  refine ⟨np_interp_left x x0 xs f0 fs hx, np_interp_right y xp fp hne hlen hall,
    ?_, ?_, boolIndex_good_all _⟩
  · intro i hi
    have hi2 : i < (flux_inject_of seps cons pxsc Fstar conv seps_inject).length := by
      simpa [flux_inject_of] using hi
    rw [List.getD_eq_getElem _ _ hi2, List.getD_eq_getElem _ _ hi]
    simp only [flux_inject_of, List.getElem_map]
    cases h : np_interp (seps_inject[i] * pxsc / 1000) seps cons <;> simp [h]
  · apply good_filter_zip
    simp [flux_inject_of]

/-- Witness for C6 amended, with a NaN raw contrast at the second sample so
that one candidate flux is NaN and is dropped by the filter. -/
theorem interp_clamp_filter_spec_witness :
    ((0 : ℚ) < 1 ∧ ([1, 2] : List ℚ) ≠ [] ∧
      ([1, 2] : List ℚ).length = ([some 7, some 9] : List Val).length ∧
      ∀ a ∈ ([1, 2] : List ℚ), a < 5) ∧
    (np_interp 0 ((1 : ℚ) :: [2]) (some 7 :: [some 9]) = some 7 ∧
      np_interp 5 [1, 2] [some 7, some 9] = ([some 7, some 9] : List Val).getLastD none ∧
      (∀ i, i < ([1500, 2500] : List ℚ).length →
        ((flux_inject_of [1, 2] [some 7, none] 1 1 1 [1500, 2500]).getD i none).isSome =
          (np_interp (([1500, 2500] : List ℚ).getD i 0 * 1 / 1000) [1, 2]
            [some 7, none]).isSome) ∧
      (boolIndex (good_mask (flux_inject_of [1, 2] [some 7, none] 1 1 1 [1500, 2500]))
          (flux_inject_of [1, 2] [some 7, none] 1 1 1 [1500, 2500])).zip
        (boolIndex (good_mask (flux_inject_of [1, 2] [some 7, none] 1 1 1 [1500, 2500]))
          [1500, 2500]) =
        ((flux_inject_of [1, 2] [some 7, none] 1 1 1 [1500, 2500]).zip
          ([1500, 2500] : List ℚ)).filter (fun p => p.1.isSome) ∧
      (∀ v ∈ boolIndex
          (good_mask (flux_inject_of [1, 2] [some 7, none] 1 1 1 [1500, 2500]))
          (flux_inject_of [1, 2] [some 7, none] 1 1 1 [1500, 2500]),
        v.isSome = true)) :=
  ⟨⟨by norm_num, by simp, rfl, by norm_num⟩,
    interp_clamp_filter_spec 0 5 1 [2] (some 7) [some 9] [1, 2] [some 7, some 9]
      [1, 2] [some 7, none] 1 1 1 [1500, 2500]
      (by norm_num) (by simp) rfl (by norm_num)⟩

/-- C9: both masking operations are pure: on a store of arrays, they leave
every pre-existing array (in particular the input at handle `i`) unchanged
and return a freshly allocated array, at a handle distinct from the input,
holding exactly the pure masking result. -/
theorem masking_purity_spec (st : List NpArray) (i : ℕ) (pxsc : ℚ) (cent : ℚ × ℚ)
    (mrad : ℚ) (ra_off de_off : List ℚ) (ranges : List (ℚ × ℚ))
    (hi : i < st.length) (h3 : (st.getD i default).shape.length = 3) :
    ∃ stC oc stB ob,
      mask_companions_heap st i pxsc cent mrad ra_off de_off = .ok (stC, st.length) ∧
      mask_bar_heap st i cent ranges = .ok (stB, st.length) ∧
      (∀ k, k < st.length → stC.getD k default = st.getD k default ∧
        stB.getD k default = st.getD k default) ∧
      st.length ≠ i ∧
      mask_companions (st.getD i default) pxsc cent mrad ra_off de_off = .ok oc ∧
      stC.getD st.length default = oc ∧
      mask_bar (st.getD i default) cent ranges = .ok ob ∧
      stB.getD st.length default = ob := by
  obtain ⟨oc, hc⟩ : ∃ oc, mask_companions (st.getD i default) pxsc cent mrad
      ra_off de_off = .ok oc :=
    ⟨_, mask_companions_eq (st.getD i default) pxsc cent mrad ra_off de_off h3⟩
  obtain ⟨ob, hb⟩ : ∃ ob, mask_bar (st.getD i default) cent ranges = .ok ob :=
    ⟨_, mask_bar_eq (st.getD i default) cent ranges h3⟩
  refine ⟨st ++ [oc], oc, st ++ [ob], ob, ?_, ?_, ?_, Nat.ne_of_gt hi, hc, ?_, hb, ?_⟩
  · unfold mask_companions_heap
    rw [hc]
  · unfold mask_bar_heap
    rw [hb]
  · intro k hk
    constructor <;>
      simp [List.getD_eq_getElem?_getD, List.getElem?_append_left hk]
  · simp [List.getD_eq_getElem?_getD, List.getElem?_append_right (le_refl st.length)]
  · simp [List.getD_eq_getElem?_getD, List.getElem?_append_right (le_refl st.length)]

/-- Witness for C9 at a one-array store. -/
theorem masking_purity_spec_witness :
    ((0 : ℕ) < [(⟨[1, 1, 1], [some 1]⟩ : NpArray)].length ∧
      ([(⟨[1, 1, 1], [some 1]⟩ : NpArray)].getD 0 default).shape.length = 3) ∧
    (∃ stC oc stB ob,
      mask_companions_heap [(⟨[1, 1, 1], [some 1]⟩ : NpArray)] 0 1 (0, 0) 1 [] [] =
        .ok (stC, [(⟨[1, 1, 1], [some 1]⟩ : NpArray)].length) ∧
      mask_bar_heap [(⟨[1, 1, 1], [some 1]⟩ : NpArray)] 0 (0, 0) [] =
        .ok (stB, [(⟨[1, 1, 1], [some 1]⟩ : NpArray)].length) ∧
      (∀ k, k < [(⟨[1, 1, 1], [some 1]⟩ : NpArray)].length →
        stC.getD k default = [(⟨[1, 1, 1], [some 1]⟩ : NpArray)].getD k default ∧
        stB.getD k default = [(⟨[1, 1, 1], [some 1]⟩ : NpArray)].getD k default) ∧
      [(⟨[1, 1, 1], [some 1]⟩ : NpArray)].length ≠ 0 ∧
      mask_companions ([(⟨[1, 1, 1], [some 1]⟩ : NpArray)].getD 0 default) 1 (0, 0) 1
        [] [] = .ok oc ∧
      stC.getD [(⟨[1, 1, 1], [some 1]⟩ : NpArray)].length default = oc ∧
      mask_bar ([(⟨[1, 1, 1], [some 1]⟩ : NpArray)].getD 0 default) (0, 0) [] = .ok ob ∧
      stB.getD [(⟨[1, 1, 1], [some 1]⟩ : NpArray)].length default = ob) :=
  ⟨⟨by decide, by decide⟩,
    masking_purity_spec [(⟨[1, 1, 1], [some 1]⟩ : NpArray)] 0 1 (0, 0) 1 [] [] []
      (by decide) (by decide)⟩

theorem arctan2_one_zero : arctan2 1 0 = Real.pi / 2 := by
  unfold arctan2
  have h : (⟨(0 : ℝ), (1 : ℝ)⟩ : ℂ) = Complex.I := by
    apply Complex.ext <;> simp
  rw [h, Complex.arg_I]

theorem mod360_90 : mod360 90 = 90 := by
  unfold mod360
  have h : ⌊(90 : ℝ) / 360⌋ = 0 := by
    apply Int.floor_eq_iff.mpr
    norm_num
  rw [h]
  norm_num

theorem mod360_neg90 : mod360 (-90) = 270 := by
  unfold mod360
  have h : ⌊(-90 : ℝ) / 360⌋ = -1 := by
    apply Int.floor_eq_iff.mpr
    norm_num
  rw [h]
  norm_num

theorem ttCode_cex_val : ttCode (0, 0) 2 1 1 = 270 := by
  unfold ttCode
  have hx : (((pixX 2 1 : ℚ) - ((0 : ℚ), (0 : ℚ)).1 : ℚ) : ℝ) = 1 := by
    norm_num [pixX]
  have hy : (((pixY 2 1 1 : ℚ) - ((0 : ℚ), (0 : ℚ)).2 : ℚ) : ℝ) = 0 := by
    norm_num [pixY]
  rw [hx, hy, arctan2_one_zero]
  have h : (180 / Real.pi) * -(Real.pi / 2) = -90 := by
    have hπ : Real.pi ≠ 0 := Real.pi_ne_zero
    field_simp
    ring
  rw [h, mod360_neg90]

theorem ttClaim_cex_val : ttClaim (0, 0) 2 1 1 = 90 := by
  unfold ttClaim
  have hx : (((pixX 2 1 : ℚ) - ((0 : ℚ), (0 : ℚ)).1 : ℚ) : ℝ) = 1 := by
    norm_num [pixX]
  have hy : (((pixY 2 1 1 : ℚ) - ((0 : ℚ), (0 : ℚ)).2 : ℚ) : ℝ) = 0 := by
    norm_num [pixY]
  rw [hx, hy, arctan2_one_zero]
  have h : (180 / Real.pi) * (Real.pi / 2) = 90 := by
    have hπ : Real.pi ≠ 0 := Real.pi_ne_zero
    field_simp
    ring
  rw [h, mod360_90]

/-- C7 counterexample: on a 1×1×2 cube centered at (0,0) with the single slice
(89, 91), pixel 1 (offset x=1, y=0) has claim-angle
`deg(arctan2(1,0)) % 360 = 90 ∈ [89, 91]`, so by the claim it is restored to
its original value 7 — but the code computes `deg(-arctan2(1,0)) % 360 = 270`,
outside the slice, and sets the pixel to NaN. -/
theorem mask_bar_angle_cex :
    ∃ out, mask_bar ⟨[1, 1, 2], [some 5, some 7]⟩ (0, 0) [(89, 91)] = .ok out ∧
      (89 : ℝ) ≤ ttClaim (0, 0) 2 1 1 ∧ ttClaim (0, 0) 2 1 1 ≤ 91 ∧
      out.data.getD 1 none = none ∧
      (⟨[1, 1, 2], [some 5, some 7]⟩ : NpArray).data.getD 1 none = some 7 := by
  refine ⟨_, mask_bar_eq _ _ _ rfl, ?_, ?_, ?_, rfl⟩
  · rw [ttClaim_cex_val]
    norm_num
  · rw [ttClaim_cex_val]
    norm_num
  · show (barCore (0, 0) 2 1 [some 5, some 7] [(89, 91)]).getD 1 none = none
    rw [barCore_getD (0, 0) 2 1 [some 5, some 7] (89, 91) [] 1 (by norm_num), if_neg]
    rintro ⟨r, hr, hin⟩
    simp only [List.mem_singleton] at hr
    subst hr
    unfold inRangeTT at hin
    rw [ttCode_cex_val] at hin
    have h2 := hin.2
    norm_num at h2

/-- C7 amended: the per-pixel position angle of `mask_bar` is the degree
conversion of the negated arctan2 of (x-offset, y-offset), normalized to
[0,360) (`ttCode`); when at least one slice is supplied, a pixel keeps its
original value iff this angle lies within some slice (inclusive bounds) and is
set to NaN otherwise; with no slices the cube is returned unchanged. -/
theorem mask_bar_restore_spec (data : NpArray) (cent : ℚ × ℚ)
    (ranges : List (ℚ × ℚ)) (h3 : data.shape.length = 3) :
    ∃ out, mask_bar data cent ranges = .ok out ∧ out.shape = data.shape ∧
      out.data.length = data.data.length ∧
      (ranges = [] → out.data = data.data) ∧
      (ranges ≠ [] → ∀ n, n < data.data.length →
        ((∃ r ∈ ranges,
            (r.1 : ℝ) ≤ ttCode cent (data.shape.getD 2 0) (data.shape.getD 1 0) n ∧
            ttCode cent (data.shape.getD 2 0) (data.shape.getD 1 0) n ≤ (r.2 : ℝ)) →
          out.data.getD n none = data.data.getD n none) ∧
        ((∀ r ∈ ranges,
            ¬((r.1 : ℝ) ≤ ttCode cent (data.shape.getD 2 0) (data.shape.getD 1 0) n ∧
              ttCode cent (data.shape.getD 2 0) (data.shape.getD 1 0) n ≤ (r.2 : ℝ))) →
          out.data.getD n none = none)) := by
  refine ⟨_, mask_bar_eq data cent ranges h3, rfl, barCore_length _ _ _ _ _, ?_, ?_⟩
  · intro hnil
    subst hnil
    rfl
  · intro hne n hn
    obtain ⟨r0, rest, hr⟩ := List.exists_cons_of_ne_nil hne
    subst hr
    constructor
    · intro hex
      have hex' : ∃ r ∈ r0 :: rest,
          inRangeTT cent (data.shape.getD 2 0) (data.shape.getD 1 0) r n := hex
      rw [barCore_getD _ _ _ _ _ _ n hn, if_pos hex']
    · intro hall
      have hall' : ¬∃ r ∈ r0 :: rest,
          inRangeTT cent (data.shape.getD 2 0) (data.shape.getD 1 0) r n := by
        rintro ⟨r, hr, hin⟩
        exact hall r hr hin
      rw [barCore_getD _ _ _ _ _ _ n hn, if_neg hall']

/-- Witness for the amended C7 at a concrete 1×1×2 cube with one slice. -/
theorem mask_bar_restore_spec_witness :
    ((⟨[1, 1, 2], [some 5, some 7]⟩ : NpArray).shape.length = 3) ∧
    (∃ out, mask_bar ⟨[1, 1, 2], [some 5, some 7]⟩ (0, 0) [(0, 360)] = .ok out ∧
      out.shape = (⟨[1, 1, 2], [some 5, some 7]⟩ : NpArray).shape ∧
      out.data.length = (⟨[1, 1, 2], [some 5, some 7]⟩ : NpArray).data.length ∧
      (([((0 : ℚ), (360 : ℚ))] : List (ℚ × ℚ)) = [] →
        out.data = (⟨[1, 1, 2], [some 5, some 7]⟩ : NpArray).data) ∧
      (([((0 : ℚ), (360 : ℚ))] : List (ℚ × ℚ)) ≠ [] →
        ∀ n, n < (⟨[1, 1, 2], [some 5, some 7]⟩ : NpArray).data.length →
        ((∃ r ∈ ([((0 : ℚ), (360 : ℚ))] : List (ℚ × ℚ)),
            (r.1 : ℝ) ≤ ttCode (0, 0) 2 1 n ∧ ttCode (0, 0) 2 1 n ≤ (r.2 : ℝ)) →
          out.data.getD n none =
            (⟨[1, 1, 2], [some 5, some 7]⟩ : NpArray).data.getD n none) ∧
        ((∀ r ∈ ([((0 : ℚ), (360 : ℚ))] : List (ℚ × ℚ)),
            ¬((r.1 : ℝ) ≤ ttCode (0, 0) 2 1 n ∧ ttCode (0, 0) 2 1 n ≤ (r.2 : ℝ))) →
          out.data.getD n none = none))) :=
  ⟨by decide,
    mask_bar_restore_spec ⟨[1, 1, 2], [some 5, some 7]⟩ (0, 0) [(0, 360)] (by decide)⟩

end Contrast
